import Mathlib

/-!
Verification development for the plandex context-ingestion engine
(`src/cli/lib/context_load.go`) and the project path resolver
(`src/unnamed/part_000`, Go package `fs`).

The Go code is shallowly embedded: every worker of `MustLoadContext`
updates the shared token counters while holding `totalTokensMutex`, so the
concurrent updates are serialized; we model one ingestion call as a fold
over the list of units in lock-acquisition order.  Claims about
order-independence are stated over permutations of that list.
-/

namespace Plandex

/-- The five context-part types of `shared.ModelContextPart.Type` used by
`MustLoadContext` (`ContextNoteType`, `ContextPipedDataType`,
`ContextDirectoryTreeType`, `ContextFileType`, `ContextURLType`). -/
inductive ContextType where
  | note
  | pipedData
  | directoryTree
  | file
  | url
deriving DecidableEq, Repr

/-- One unit of ingestion work: the part type of the worker's branch and the
token count `numTokens` returned by `shared.GetNumTokens` for its body
(tokenization is an external collaborator, so the count is data here). -/
structure LoadUnit where
  type : ContextType
  numTokens : Nat
deriving DecidableEq, Repr

/-- The three shared counters of `MustLoadContext`: `totalTokens`
(initialized to `planState.ContextTokens`), `tokensAdded` (initialized to 0)
and `totalUpdatableTokens` (initialized to
`planState.ContextUpdatableTokens`).  All three are `int` in Go and only
ever incremented by non-negative token counts, so we use `Nat`. -/
structure TokenTotals where
  totalTokens : Nat
  tokensAdded : Nat
  totalUpdatableTokens : Nat
deriving DecidableEq, Repr

/-- Which worker branches of `MustLoadContext` add the unit's count to
`totalUpdatableTokens`: the names-only branch (directory tree, line 243),
the file branch (line 322) and the URL branch (line 384) do; the note and
piped-data branches do not. -/
def updatesUpdatable : ContextType → Bool
  | .directoryTree => true
  | .file => true
  | .url => true
  | .note => false
  | .pipedData => false

/-- The counter updates one worker performs while holding
`totalTokensMutex`: `totalTokens += numTokens`, `tokensAdded += numTokens`,
and (in the updatable branches) `totalUpdatableTokens += numTokens`. -/
def applyUnit (t : TokenTotals) (u : LoadUnit) : TokenTotals :=
  { totalTokens := t.totalTokens + u.numTokens
    tokensAdded := t.tokensAdded + u.numTokens
    totalUpdatableTokens :=
      t.totalUpdatableTokens + (if updatesUpdatable u.type then u.numTokens else 0) }

/-- Serialized execution of the locked sections of all workers, in
lock-acquisition order.  Immediately after applying its increments a worker
checks `totalTokens > maxTokens` while still holding the lock and calls
`os.Exit(1)` if it holds; `.error t` models that abort, with `t` the
counter values at the moment of abort (the increments are never rolled
back).  `.ok t` models all workers finishing their locked sections. -/
def runUnits (maxTokens : Nat) (t : TokenTotals) : List LoadUnit → Except TokenTotals TokenTotals
  | [] => .ok t
  | u :: us =>
    let t' := applyUnit t u
    if t'.totalTokens > maxTokens then .error t' else runUnits maxTokens t' us

/-- Sum of the token counts of a list of units. -/
def sumTokens (units : List LoadUnit) : Nat :=
  (units.map LoadUnit.numTokens).sum

/-- The counter part of one `MustLoadContext` call: `init` is
`planState.ContextTokens` and `upd` is `planState.ContextUpdatableTokens`
as read at the start of the call; `tokensAdded` starts at 0. -/
def mustLoadContextTotals (maxTokens init upd : Nat) (units : List LoadUnit) :
    Except TokenTotals TokenTotals :=
  runUnits maxTokens ⟨init, 0, upd⟩ units

theorem runUnits_error_gt (maxTokens : Nat) :
    ∀ (units : List LoadUnit) (t e : TokenTotals),
      runUnits maxTokens t units = .error e → e.totalTokens > maxTokens := by
  intro units
  induction units with
  | nil => intro t e h; simp [runUnits] at h
  | cons u us ih =>
    intro t e h
    simp only [runUnits] at h
    by_cases hgt : (applyUnit t u).totalTokens > maxTokens
    · simp [hgt] at h
      subst h
      exact hgt
    · simp [hgt] at h
      exact ih _ _ h

theorem runUnits_ok_total (maxTokens : Nat) :
    ∀ (units : List LoadUnit) (t t' : TokenTotals),
      runUnits maxTokens t units = .ok t' →
        t'.totalTokens = t.totalTokens + sumTokens units := by
  intro units
  induction units with
  | nil =>
    intro t t' h
    simp [runUnits] at h
    subst h
    simp [sumTokens]
  | cons u us ih =>
    intro t t' h
    simp only [runUnits] at h
    by_cases hgt : (applyUnit t u).totalTokens > maxTokens
    · simp [hgt] at h
    · simp [hgt] at h
      have := ih _ _ h
      simp [applyUnit, sumTokens] at this ⊢
      omega

theorem runUnits_error_take (maxTokens : Nat) :
    ∀ (units : List LoadUnit) (t e : TokenTotals),
      runUnits maxTokens t units = .error e →
        ∃ k, k < units.length ∧
          e.totalTokens = t.totalTokens + sumTokens (units.take (k + 1)) := by
  intro units
  induction units with
  | nil => intro t e h; simp [runUnits] at h
  | cons u us ih =>
    intro t e h
    simp only [runUnits] at h
    by_cases hgt : (applyUnit t u).totalTokens > maxTokens
    · simp [hgt] at h
      refine ⟨0, by simp, ?_⟩
      subst h
      simp [applyUnit, sumTokens]
    · simp [hgt] at h
      obtain ⟨k, hk, he⟩ := ih _ _ h
      refine ⟨k + 1, by simpa using hk, ?_⟩
      simp [sumTokens, applyUnit] at he ⊢
      omega

theorem runUnits_ok_of_le (maxTokens : Nat) :
    ∀ (units : List LoadUnit) (t : TokenTotals),
      t.totalTokens + sumTokens units ≤ maxTokens →
        ∃ t', runUnits maxTokens t units = .ok t' := by
  intro units
  induction units with
  | nil => intro t _; exact ⟨t, rfl⟩
  | cons u us ih =>
    intro t hle
    have hsum : sumTokens (u :: us) = u.numTokens + sumTokens us := by
      simp [sumTokens]
    have hgt : ¬ (applyUnit t u).totalTokens > maxTokens := by
      simp [applyUnit]
      omega
    have hrec : (applyUnit t u).totalTokens + sumTokens us ≤ maxTokens := by
      simp [applyUnit]
      omega
    obtain ⟨t', ht'⟩ := ih (applyUnit t u) hrec
    refine ⟨t', ?_⟩
    simp only [runUnits]
    simp [hgt]
    exact ht'

theorem runUnits_ok_le (maxTokens : Nat) :
    ∀ (units : List LoadUnit) (t t' : TokenTotals),
      runUnits maxTokens t units = .ok t' →
        units = [] ∨ t.totalTokens + sumTokens units ≤ maxTokens := by
  intro units
  induction units with
  | nil => intro t t' _; exact Or.inl rfl
  | cons u us ih =>
    intro t t' h
    simp only [runUnits] at h
    by_cases hgt : (applyUnit t u).totalTokens > maxTokens
    · simp [hgt] at h
    · simp [hgt] at h
      rcases ih _ _ h with hnil | hle
      · subst hnil
        right
        have := runUnits_ok_total maxTokens [] _ _ h
        simp [applyUnit, sumTokens] at hgt ⊢
        omega
      · right
        simp [applyUnit, sumTokens] at hle ⊢
        omega

theorem runUnits_updatable_le (maxTokens : Nat) :
    ∀ (units : List LoadUnit) (t t' : TokenTotals),
      t.totalUpdatableTokens ≤ t.totalTokens →
      (runUnits maxTokens t units = .ok t' ∨ runUnits maxTokens t units = .error t') →
        t'.totalUpdatableTokens ≤ t'.totalTokens := by
  intro units
  induction units with
  | nil =>
    intro t t' hle h
    rcases h with h | h
    · simp [runUnits] at h; subst h; exact hle
    · simp [runUnits] at h
  | cons u us ih =>
    intro t t' hle h
    have hstep : (applyUnit t u).totalUpdatableTokens ≤ (applyUnit t u).totalTokens := by
      simp [applyUnit]
      by_cases hu : updatesUpdatable u.type <;> simp [hu] <;> omega
    rcases h with h | h <;> simp only [runUnits] at h <;>
      by_cases hgt : (applyUnit t u).totalTokens > maxTokens
    · simp [hgt] at h
    · simp [hgt] at h
      exact ih _ _ hstep (Or.inl h)
    · simp [hgt] at h
      subst h
      exact hstep
    · simp [hgt] at h
      exact ih _ _ hstep (Or.inr h)

theorem runUnits_added_invariant (maxTokens c : Nat) :
    ∀ (units : List LoadUnit) (t t' : TokenTotals),
      t.totalTokens = c + t.tokensAdded →
      runUnits maxTokens t units = .ok t' →
        t'.totalTokens = c + t'.tokensAdded := by
  intro units
  induction units with
  | nil => intro t t' hinv h; simp [runUnits] at h; subst h; exact hinv
  | cons u us ih =>
    intro t t' hinv h
    simp only [runUnits] at h
    by_cases hgt : (applyUnit t u).totalTokens > maxTokens
    · simp [hgt] at h
    · simp [hgt] at h
      apply ih _ _ _ h
      simp [applyUnit]
      omega

/-- C1: with `maxTokens = T`, initial totals 0 and a single unit of
`T + 1` tokens, ingestion aborts with totals exactly `T + 1` (the
offending unit's count is applied before the over-budget check and never
rolled back); and in general the worker at the head of the
lock-acquisition order triggers the abort if and only if the running total
after adding its count strictly exceeds `maxTokens`. -/
theorem mustLoadContext_abort_boundary :
    (∀ (T : Nat) (ty : ContextType),
      mustLoadContextTotals T 0 0 [⟨ty, T + 1⟩] =
          .error (applyUnit ⟨0, 0, 0⟩ ⟨ty, T + 1⟩) ∧
        (applyUnit ⟨0, 0, 0⟩ ⟨ty, T + 1⟩).totalTokens = T + 1 ∧
        (applyUnit ⟨0, 0, 0⟩ ⟨ty, T + 1⟩).tokensAdded = T + 1) ∧
    (∀ (maxTokens : Nat) (t : TokenTotals) (u : LoadUnit) (us : List LoadUnit),
      runUnits maxTokens t (u :: us) = .error (applyUnit t u) ↔
        (applyUnit t u).totalTokens > maxTokens) := by
  constructor
  · intro T ty
    refine ⟨?_, by simp [applyUnit], by simp [applyUnit]⟩
    simp [mustLoadContextTotals, runUnits, applyUnit]
  · intro maxTokens t u us
    constructor
    · intro h
      by_contra hgt
      simp only [runUnits] at h
      simp [hgt] at h
      have := runUnits_error_gt maxTokens us (applyUnit t u) (applyUnit t u) h
      exact hgt this
    · intro hgt
      simp only [runUnits]
      simp [hgt]

/-- C2: the final running total of an ingestion call equals the
`contextTokens` value read from `PlanState` at the start plus the sum of
the token counts of exactly the units counted before any abort (on
success: all of them; on abort: the first `k + 1` units in
lock-acquisition order), and the successful final value is independent of
the order in which workers acquire the lock. -/
theorem mustLoadContext_budget_monotonic :
    (∀ (maxTokens init upd : Nat) (units : List LoadUnit) (t' : TokenTotals),
      mustLoadContextTotals maxTokens init upd units = .ok t' →
        t'.totalTokens = init + sumTokens units) ∧
    (∀ (maxTokens init upd : Nat) (units : List LoadUnit) (t' : TokenTotals),
      mustLoadContextTotals maxTokens init upd units = .error t' →
        ∃ k, k < units.length ∧
          t'.totalTokens = init + sumTokens (units.take (k + 1))) ∧
    (∀ (maxTokens init upd : Nat) (units units' : List LoadUnit) (t' : TokenTotals),
      units.Perm units' →
      mustLoadContextTotals maxTokens init upd units = .ok t' →
        ∃ t'', mustLoadContextTotals maxTokens init upd units' = .ok t'' ∧
          t''.totalTokens = t'.totalTokens) := by
  refine ⟨?_, ?_, ?_⟩
  · intro maxTokens init upd units t' h
    simpa using runUnits_ok_total maxTokens units _ _ h
  · intro maxTokens init upd units t' h
    simpa using runUnits_error_take maxTokens units _ _ h
  · intro maxTokens init upd units units' t' hperm h
    have hsum : sumTokens units' = sumTokens units := by
      simp [sumTokens]
      exact ((hperm.map LoadUnit.numTokens).sum_eq).symm
    rcases runUnits_ok_le maxTokens units _ _ h with hnil | hle
    · subst hnil
      have : units' = [] := hperm.symm.eq_nil
      subst this
      exact ⟨t', h, rfl⟩
    · have hle' : (⟨init, 0, upd⟩ : TokenTotals).totalTokens + sumTokens units' ≤ maxTokens := by
        simpa [hsum] using hle
      obtain ⟨t'', ht''⟩ := runUnits_ok_of_le maxTokens units' _ hle'
      refine ⟨t'', ht'', ?_⟩
      have h1 := runUnits_ok_total maxTokens units' _ _ ht''
      have h2 := runUnits_ok_total maxTokens units _ _ h
      simp [h1, h2, hsum]

/-- C2 witness: a concrete successful call whose final total is the
initial 1 plus the 5 tokens of its two units. -/
theorem mustLoadContext_budget_monotonic_witness :
    (⟨6, 5, 3⟩ : TokenTotals).totalTokens =
      1 + sumTokens [⟨ContextType.note, 2⟩, ⟨ContextType.file, 3⟩] :=
  mustLoadContext_budget_monotonic.1 10 1 0
    [⟨ContextType.note, 2⟩, ⟨ContextType.file, 3⟩] ⟨6, 5, 3⟩ rfl

/-- C3: a unit's token count is added to `totalUpdatableTokens` exactly
when its type is File, DirectoryTree or URL (never for Note or PipedData);
both counters are only ever incremented, and every call (successful or
aborted) preserves `contextTokens >= contextUpdatableTokens` when it holds
of the initial `PlanState` values (`>= 0` holds because the counters are
naturals that are never decremented). -/
theorem mustLoadContext_updatable_invariant :
    (∀ (t : TokenTotals) (u : LoadUnit),
      (applyUnit t u).totalUpdatableTokens =
        t.totalUpdatableTokens +
          (if u.type = .file ∨ u.type = .directoryTree ∨ u.type = .url then
            u.numTokens else 0)) ∧
    (∀ (t : TokenTotals) (u : LoadUnit),
      t.totalTokens ≤ (applyUnit t u).totalTokens ∧
      t.tokensAdded ≤ (applyUnit t u).tokensAdded ∧
      t.totalUpdatableTokens ≤ (applyUnit t u).totalUpdatableTokens) ∧
    (∀ (maxTokens init upd : Nat) (units : List LoadUnit),
      upd ≤ init → ∀ t' : TokenTotals,
      (mustLoadContextTotals maxTokens init upd units = .ok t' ∨
        mustLoadContextTotals maxTokens init upd units = .error t') →
        t'.totalUpdatableTokens ≤ t'.totalTokens) := by
  refine ⟨?_, ?_, ?_⟩
  · intro t u
    cases hu : u.type <;> simp [applyUnit, updatesUpdatable, hu]
  · intro t u
    refine ⟨by simp [applyUnit], by simp [applyUnit], ?_⟩
    simp [applyUnit]
  · intro maxTokens init upd units hle t' h
    exact runUnits_updatable_le maxTokens units _ _ (by simpa using hle) h

/-- C3 witness: a concrete call starting from `upd = 0 ≤ 2 = init` whose
final totals satisfy the invariant. -/
theorem mustLoadContext_updatable_invariant_witness :
    (0 : Nat) ≤ 2 ∧
      (⟨9, 7, 4⟩ : TokenTotals).totalUpdatableTokens ≤
        (⟨9, 7, 4⟩ : TokenTotals).totalTokens :=
  ⟨by decide,
    mustLoadContext_updatable_invariant.2.2 20 2 0
      [⟨ContextType.pipedData, 3⟩, ⟨ContextType.url, 4⟩] (by decide)
      ⟨9, 7, 4⟩ (Or.inl rfl)⟩

/-- C10: on every successful return of `MustLoadContext`, the returned
`tokensAdded` equals the returned `totalTokens` minus the
`planState.ContextTokens` value read at the start, because every worker
branch increments `totalTokens` and `tokensAdded` together by the same
`numTokens` inside the same locked section. -/
theorem mustLoadContext_tokensAdded_delta :
    (∀ (t : TokenTotals) (u : LoadUnit),
      (applyUnit t u).totalTokens = t.totalTokens + u.numTokens ∧
      (applyUnit t u).tokensAdded = t.tokensAdded + u.numTokens) ∧
    (∀ (maxTokens init upd : Nat) (units : List LoadUnit) (t' : TokenTotals),
      mustLoadContextTotals maxTokens init upd units = .ok t' →
        t'.tokensAdded = t'.totalTokens - init) := by
  constructor
  · intro t u
    exact ⟨by simp [applyUnit], by simp [applyUnit]⟩
  · intro maxTokens init upd units t' h
    have := runUnits_added_invariant maxTokens init units ⟨init, 0, upd⟩ t' (by simp) h
    omega

/-- C10 witness: a concrete successful call with `init = 4`, final total 9
and `tokensAdded = 5 = 9 - 4`. -/
theorem mustLoadContext_tokensAdded_delta_witness :
    (⟨9, 5, 2⟩ : TokenTotals).tokensAdded =
      (⟨9, 5, 2⟩ : TokenTotals).totalTokens - 4 :=
  mustLoadContext_tokensAdded_delta.2 30 4 2
    [⟨ContextType.note, 5⟩] ⟨9, 5, 2⟩ rfl

/-- The fields of `shared.ModelContextPart` referenced by the claims
(`Sha`, `Url`, `AddedAt` and `UpdatedAt` are carried by the source but not
mentioned by any claim; `Sha` is an external hash of `body` and the
timestamps are wall-clock values). -/
structure ModelContextPart where
  type : ContextType
  name : String
  filePath : String
  body : String
  numTokens : Nat
deriving DecidableEq, Repr

/-- Go's `filepath.Base` on slash-separated paths: empty input gives ".",
trailing slashes are stripped, an all-slash path gives "/", otherwise the
last path element is returned. -/
def filepathBase (path : String) : String :=
  if path = "" then "."
  else
    let cs := (path.toList.reverse.dropWhile fun c => c = '/').reverse
    if cs = [] then "/"
    else String.mk ((cs.reverse.takeWhile fun c => c ≠ '/').reverse)

/-- The special-cased display name computed in the names-only branch of
`MustLoadContext` (lines 256-263): the base name of the input path, with
"." replaced by "cwd" and ".." by "parent".  The source computes this
local `name` and then never reads it: the part's `Name` field is set to
`inputFilePath` (line 267). -/
def dirTreeDisplayName (inputFilePath : String) : String :=
  let name := filepathBase inputFilePath
  let name := if name = "." then "cwd" else name
  if name = ".." then "parent" else name

/-- The display name the claim states for a names-only unit, following the
spec's words for comparison with the source: the input path, with input
"." displayed as "cwd" and input ".." displayed as "parent". -/
def claimedDirTreeName (inputFilePath : String) : String :=
  if inputFilePath = "." then "cwd"
  else if inputFilePath = ".." then "parent"
  else inputFilePath

/-- The DirectoryTree context part built per input path in the names-only
branch of `MustLoadContext` (lines 215-280).  `flattenedPaths` stands for
the result of `ParseInputPaths([]string{inputFilePath}, params)` (the
flattened, ignore-filtered descendant path list; `ParseInputPaths` lives
outside this source excerpt) and `getNumTokens` for the external
collaborator `shared.GetNumTokens`.  The body is the newline-join of the
flattened paths (line 226); `Name` and `FilePath` are both set to
`inputFilePath` (lines 267-268), and the computed `dirTreeDisplayName` is
not used. -/
def dirTreeContextPart (getNumTokens : String → Nat)
    (inputFilePath : String) (flattenedPaths : List String) : ModelContextPart :=
  let body := String.intercalate "\n" flattenedPaths
  { type := .directoryTree
    name := inputFilePath
    filePath := inputFilePath
    body := body
    numTokens := getNumTokens body }

/-- C4 counterexample: for input path "." the produced DirectoryTree part
is displayed as "." (the raw input path), not as the claimed special-cased
"cwd": the special-cased name is computed by the source (lines 256-263)
but never assigned to the part. -/
theorem dirTree_namesOnly_display_counterexample :
    claimedDirTreeName "." = "cwd" ∧
    dirTreeDisplayName "." = "cwd" ∧
    (dirTreeContextPart String.length "." ["a", "b"]).name = "." ∧
    ¬ (dirTreeContextPart String.length "." ["a", "b"]).name =
        claimedDirTreeName "." := by
  refine ⟨by decide, by decide, rfl, by decide⟩

/-- C4 (amended): in names-only mode every input directory path produces
one DirectoryTree unit whose body is the newline-joined flattened,
ignore-filtered descendant path list and whose display name (and source
path) is the input path itself, unconditionally — the special-cased "cwd"
and "parent" display names are computed but never used. -/
theorem dirTree_namesOnly_unit :
    ∀ (getNumTokens : String → Nat) (inputFilePath : String)
      (flattenedPaths : List String),
      (dirTreeContextPart getNumTokens inputFilePath flattenedPaths).type =
          .directoryTree ∧
      (dirTreeContextPart getNumTokens inputFilePath flattenedPaths).name =
          inputFilePath ∧
      (dirTreeContextPart getNumTokens inputFilePath flattenedPaths).filePath =
          inputFilePath ∧
      (dirTreeContextPart getNumTokens inputFilePath flattenedPaths).body =
          String.intercalate "\n" flattenedPaths := by
  intro getNumTokens inputFilePath flattenedPaths
  exact ⟨rfl, rfl, rfl, rfl⟩

/-- Splitting a character list on a separator character, with the
semantics of Go's `strings.Split`: the empty input yields one empty
segment, and separators at the ends yield empty segments. -/
def splitCharList (sep : Char) : List Char → List (List Char)
  | [] => [[]]
  | c :: cs =>
    if c = sep then [] :: splitCharList sep cs
    else
      match splitCharList sep cs with
      | [] => [[c]]
      | g :: gs => (c :: g) :: gs

/-- `strings.Split(path, string(os.PathSeparator))` with the separator "/"
of the modeled platform. -/
def splitOnSlash (s : String) : List String :=
  (splitCharList '/' s.toList).map String.mk

/-- The inner loop of `GetBaseDirForFilePaths` (lines 419-427): count the
consecutive leading ".." segments of the split path, walking `currentDir`
one level up per ".." segment; stops at the first non-".." segment.
`parent` models `filepath.Dir`. -/
def countAndClimb (parent : String → String) (currentDir : String) :
    List String → Nat × String
  | [] => (0, currentDir)
  | p :: ps =>
    if p = ".." then
      let r := countAndClimb parent (parent currentDir) ps
      (r.1 + 1, r.2)
    else (0, currentDir)

/-- One iteration of the outer loop of `GetBaseDirForFilePaths`: split the
path on the separator, count-and-climb its leading ".." segments from the
project root, and replace the kept pair when the count is strictly
greater. -/
def baseDirStep (parent : String → String) (projectRoot : String)
    (acc : String × Nat) (path : String) : String × Nat :=
  let r := countAndClimb parent projectRoot (splitOnSlash path)
  if r.1 > acc.2 then (r.2, r.1) else acc

/-- `GetBaseDirForFilePaths` (lines 410-436): start from the project root
with `dirsUp = 0` and fold `baseDirStep` over the input paths. -/
def getBaseDirForFilePaths (parent : String → String) (projectRoot : String)
    (paths : List String) : String :=
  (paths.foldl (baseDirStep parent projectRoot) (projectRoot, 0)).1

/-- Number of consecutive leading ".." segments of a slash-separated path. -/
def leadingParentCount (path : String) : Nat :=
  ((splitOnSlash path).takeWhile fun s => s = "..").length

/-- Maximum leading ".." count over a list of paths (0 for the empty list). -/
def maxLeadingParentCount (paths : List String) : Nat :=
  (paths.map leadingParentCount).foldl max 0

theorem countAndClimb_eq (parent : String → String) :
    ∀ (segs : List String) (d : String),
      countAndClimb parent d segs =
        ((segs.takeWhile fun s => s = "..").length,
          Nat.iterate parent (segs.takeWhile fun s => s = "..").length d) := by
  intro segs
  induction segs with
  | nil => intro d; simp [countAndClimb]
  | cons p ps ih =>
    intro d
    by_cases hp : p = ".."
    · simp [countAndClimb, hp, ih (parent d), List.takeWhile_cons,
        Function.iterate_succ_apply]
    · simp [countAndClimb, hp, List.takeWhile_cons]

theorem baseDirStep_eq (parent : String → String) (projectRoot : String)
    (m : Nat) (p : String) :
    baseDirStep parent projectRoot (Nat.iterate parent m projectRoot, m) p =
      (Nat.iterate parent (max m (leadingParentCount p)) projectRoot,
        max m (leadingParentCount p)) := by
  have hsplit : baseDirStep parent projectRoot (Nat.iterate parent m projectRoot, m) p =
      (if leadingParentCount p > m then
        (Nat.iterate parent (leadingParentCount p) projectRoot, leadingParentCount p)
      else (Nat.iterate parent m projectRoot, m)) := by
    rw [baseDirStep, countAndClimb_eq]
    rfl
  rw [hsplit]
  by_cases h : leadingParentCount p > m
  · have hmax : max m (leadingParentCount p) = leadingParentCount p := by omega
    simp [h, hmax]
  · have hmax : max m (leadingParentCount p) = m := by omega
    simp [h, hmax]

theorem getBaseDir_foldl_inv (parent : String → String) (projectRoot : String) :
    ∀ (paths : List String) (m : Nat),
      (paths.foldl (baseDirStep parent projectRoot)
          (Nat.iterate parent m projectRoot, m)) =
      (Nat.iterate parent ((paths.map leadingParentCount).foldl max m) projectRoot,
        (paths.map leadingParentCount).foldl max m) := by
  intro paths
  induction paths with
  | nil => intro m; simp
  | cons p ps ih =>
    intro m
    simp only [List.foldl_cons, List.map_cons, baseDirStep_eq, ih]

/-- C7: `GetBaseDirForFilePaths` walks up from the project root by the
maximum number of consecutive leading ".." segments over all input paths;
for inputs "../a/b", "../../c", "d/e" it climbs exactly 2 levels, and it
returns the project root itself when no input path has a leading ".."
segment (in particular for the empty input list). -/
theorem getBaseDir_climbs_max_leading :
    (∀ (parent : String → String) (projectRoot : String) (paths : List String),
      getBaseDirForFilePaths parent projectRoot paths =
        Nat.iterate parent (maxLeadingParentCount paths) projectRoot) ∧
    (∀ (parent : String → String) (projectRoot : String),
      getBaseDirForFilePaths parent projectRoot ["../a/b", "../../c", "d/e"] =
        parent (parent projectRoot)) ∧
    (∀ (parent : String → String) (projectRoot : String) (paths : List String),
      (∀ p ∈ paths, leadingParentCount p = 0) →
        getBaseDirForFilePaths parent projectRoot paths = projectRoot) := by
  have hmain : ∀ (parent : String → String) (projectRoot : String)
      (paths : List String),
      getBaseDirForFilePaths parent projectRoot paths =
        Nat.iterate parent (maxLeadingParentCount paths) projectRoot := by
    intro parent projectRoot paths
    have h0 : (projectRoot, 0) = (Nat.iterate parent 0 projectRoot, 0) := by simp
    rw [getBaseDirForFilePaths, h0, getBaseDir_foldl_inv]
    rfl
  refine ⟨hmain, ?_, ?_⟩
  · intro parent projectRoot
    rw [hmain]
    have : maxLeadingParentCount ["../a/b", "../../c", "d/e"] = 2 := by decide
    rw [this]
    rfl
  · intro parent projectRoot paths hall
    rw [hmain]
    have : maxLeadingParentCount paths = 0 := by
      have : ∀ (l : List String), (∀ p ∈ l, leadingParentCount p = 0) →
          ∀ m : Nat, (l.map leadingParentCount).foldl max m = m := by
        intro l
        induction l with
        | nil => intro _ m; simp
        | cons q qs ih =>
          intro h m
          simp only [List.map_cons, List.foldl_cons]
          rw [h q (by simp), ih (fun p hp => h p (by simp [hp]))]
          omega
      exact this paths hall 0
    rw [this]
    rfl

/-- C7 witness: a concrete input list with no leading ".." segments, on
which the resolver returns the project root unchanged. -/
theorem getBaseDir_climbs_max_leading_witness :
    (∀ p ∈ ["d/e", "f"], leadingParentCount p = 0) ∧
      getBaseDirForFilePaths (fun s => s ++ "!") "/p" ["d/e", "f"] = "/p" :=
  ⟨by decide, getBaseDir_climbs_max_leading.2.2 (fun s => s ++ "!") "/p"
    ["d/e", "f"] (by decide)⟩

/-- Modelled from the spec: the compiled `.plandexignore` matcher
(`*ignore.GitIgnore` from the go-gitignore library, outside this source
excerpt) is per the spec "a predicate matches(relativePath) -> bool", so a
compiled matcher is an arbitrary predicate on relative paths. -/
def Matcher : Type := String → Bool

/-- The guard `ignored != nil && ignored.MatchesPath(relPath)` used at
every filtering point of `GetPaths`: a `nil` matcher (no `.plandexignore`
file) matches nothing. -/
def matchesOpt (m : Option Matcher) (p : String) : Bool :=
  match m with
  | none => false
  | some f => f p

mutual
inductive FsTree where
  | file : String → FsTree
  | dir : String → FsForest → FsTree
inductive FsForest where
  | nil : FsForest
  | cons : FsTree → FsForest → FsForest
end

/-- What one producer of `GetPaths` accumulates: accepted file paths,
accepted directory paths (the separate `dirs` map) and diverted ignored
paths.  Go accumulates into `map[string]bool` keys; we collect the keys as
lists, so membership coincides with key presence. -/
structure WalkAcc where
  files : List String
  dirs : List String
  ignoredPaths : List String

mutual
/-- The `filepath.Walk` producer of `GetPaths` (lines 228-271) over an
error-free filesystem tree whose nodes are labeled with the walked path
(`filepath.Walk` visits the root, then descends).  For a directory, the
relativized path (`rel` models `filepath.Rel(currentDir, ·)`) is tested
against the matcher: a match is diverted into `ignoredPaths` and the whole
subtree skipped (`filepath.SkipDir`), otherwise the directory is recorded
in the separate `dirs` map and the walk descends.  A file is processed
only when `isGitRepo` is false: then it is likewise either diverted or
added to `paths`. -/
def walkTree (isGitRepo : Bool) (m : Option Matcher) (rel : String → String) :
    FsTree → WalkAcc
  | .file p =>
    if isGitRepo then ⟨[], [], []⟩
    else
      let relPath := rel p
      if matchesOpt m relPath then ⟨[], [], [relPath]⟩ else ⟨[relPath], [], []⟩
  | .dir p children =>
    let relPath := rel p
    if matchesOpt m relPath then ⟨[], [], [relPath]⟩
    else
      let a := walkForest isGitRepo m rel children
      ⟨a.files, relPath :: a.dirs, a.ignoredPaths⟩
def walkForest (isGitRepo : Bool) (m : Option Matcher) (rel : String → String) :
    FsForest → WalkAcc
  | .nil => ⟨[], [], []⟩
  | .cons t f =>
    let a := walkTree isGitRepo m rel t
    let b := walkForest isGitRepo m rel f
    ⟨a.files ++ b.files, a.dirs ++ b.dirs, a.ignoredPaths ++ b.ignoredPaths⟩
end

/-- One git-listing producer of `GetPaths` (`git ls-files`, lines 155-188,
and `git ls-files --others --exclude-standard`, lines 192-224): each output
line is relativized (`rel` models
`filepath.Rel(currentDir, filepath.Join(baseDir, line))`) and either
diverted into `ignoredPaths` (when the matcher matches) or accepted. -/
def gitListAccum (m : Option Matcher) (rel : String → String) :
    List String → List String × List String
  | [] => ([], [])
  | f :: fs =>
    let relFile := rel f
    let r := gitListAccum m rel fs
    if matchesOpt m relFile then (r.1, relFile :: r.2) else (relFile :: r.1, r.2)

/-- The value-level result of `GetPaths`: the accepted-path mapping and the
diverted ignored-path mapping (keys collected as lists). -/
structure PathsResult where
  paths : List String
  ignoredPaths : List String

/-- `GetPaths(baseDir, currentDir)` (lines 132-286) with the filesystem,
git output and relativization as data: when `baseDir` is a git repo the
two listing goroutines and the walk goroutine run (their mutex-protected
writes merged into one mapping), otherwise only the walk runs and collects
files as well.  The separate `dirs` map is merged into `paths` only after
all producers have been joined on `errCh` (lines 280-282); we model that
final merge by appending the walk's `dirs` last. -/
def getPaths (isGitRepo : Bool) (m : Option Matcher) (rel : String → String)
    (trackedLines untrackedLines : List String) (tree : FsTree) : PathsResult :=
  let tr := if isGitRepo then gitListAccum m rel trackedLines else ([], [])
  let un := if isGitRepo then gitListAccum m rel untrackedLines else ([], [])
  let w := walkTree isGitRepo m rel tree
  { paths := tr.1 ++ un.1 ++ w.files ++ w.dirs
    ignoredPaths := tr.2 ++ un.2 ++ w.ignoredPaths }

mutual
/-- Deleting the children of every matched directory: the subtrees
`filepath.SkipDir` prevents the walk from entering. -/
def pruneTree (m : Option Matcher) (rel : String → String) : FsTree → FsTree
  | .file p => .file p
  | .dir p children =>
    if matchesOpt m (rel p) then .dir p .nil
    else .dir p (pruneForest m rel children)
def pruneForest (m : Option Matcher) (rel : String → String) : FsForest → FsForest
  | .nil => .nil
  | .cons t f => .cons (pruneTree m rel t) (pruneForest m rel f)
end

mutual
theorem walkTree_git_no_files (m : Option Matcher) (rel : String → String) :
    ∀ t : FsTree, (walkTree true m rel t).files = []
  | .file p => by simp [walkTree]
  | .dir p children => by
    by_cases h : matchesOpt m (rel p)
    · simp [walkTree, h]
    · simp [walkTree, h, walkForest_git_no_files m rel children]
theorem walkForest_git_no_files (m : Option Matcher) (rel : String → String) :
    ∀ f : FsForest, (walkForest true m rel f).files = []
  | .nil => by simp [walkForest]
  | .cons t f => by
    simp [walkForest, walkTree_git_no_files m rel t, walkForest_git_no_files m rel f]
end

theorem gitListAccum_mem (m : Option Matcher) (rel : String → String) :
    ∀ (ls : List String) (p : String),
      p ∈ (gitListAccum m rel ls).1 ↔
        ∃ l ∈ ls, rel l = p ∧ matchesOpt m p = false := by
  intro ls
  induction ls with
  | nil => intro p; simp [gitListAccum]
  | cons f fs ih =>
    intro p
    by_cases h : matchesOpt m (rel f) = true
    · have hfst : (gitListAccum m rel (f :: fs)).1 = (gitListAccum m rel fs).1 := by
        simp [gitListAccum, h]
      rw [hfst, ih]
      constructor
      · rintro ⟨l, hl, hrel, hm⟩
        exact ⟨l, List.mem_cons_of_mem f hl, hrel, hm⟩
      · rintro ⟨l, hl, hrel, hm⟩
        rcases List.mem_cons.mp hl with hlf | hlfs
        · subst hlf
          rw [hrel] at h
          rw [h] at hm
          cases hm
        · exact ⟨l, hlfs, hrel, hm⟩
    · have h' : matchesOpt m (rel f) = false := by
        cases hb : matchesOpt m (rel f)
        · rfl
        · exact absurd hb h
      have hfst : (gitListAccum m rel (f :: fs)).1 =
          rel f :: (gitListAccum m rel fs).1 := by
        simp [gitListAccum, h']
      rw [hfst]
      constructor
      · intro hc
        rcases List.mem_cons.mp hc with hq | hq
        · subst hq
          exact ⟨f, List.mem_cons_self f fs, rfl, h'⟩
        · obtain ⟨l, hl, hrel, hm⟩ := (ih p).mp hq
          exact ⟨l, List.mem_cons_of_mem f hl, hrel, hm⟩
      · rintro ⟨l, hl, hrel, hm⟩
        rcases List.mem_cons.mp hl with hlf | hlfs
        · subst hlf
          exact List.mem_cons.mpr (Or.inl hrel.symm)
        · exact List.mem_cons.mpr (Or.inr ((ih p).mpr ⟨l, hlfs, hrel, hm⟩))

mutual
theorem walkTree_not_matched (git : Bool) (m : Option Matcher)
    (rel : String → String) (p : String) (hp : matchesOpt m p = true) :
    ∀ t : FsTree, p ∉ (walkTree git m rel t).files ∧ p ∉ (walkTree git m rel t).dirs
  | .file q => by
    cases git
    · by_cases h : matchesOpt m (rel q) = true
      · simp [walkTree, h]
      · constructor
        · intro hc
          simp [walkTree, h] at hc
          rw [hc] at hp
          exact h hp
        · simp [walkTree, h]
    · simp [walkTree]
  | .dir q children => by
    by_cases h : matchesOpt m (rel q) = true
    · simp [walkTree, h]
    · have hrec := walkForest_not_matched git m rel p hp children
      have hfiles : (walkTree git m rel (.dir q children)).files =
          (walkForest git m rel children).files := by
        simp [walkTree, h]
      have hdirs : (walkTree git m rel (.dir q children)).dirs =
          rel q :: (walkForest git m rel children).dirs := by
        simp [walkTree, h]
      constructor
      · rw [hfiles]
        exact hrec.1
      · rw [hdirs]
        intro hc
        rcases List.mem_cons.mp hc with hq | hq
        · rw [hq] at hp
          exact h hp
        · exact hrec.2 hq
theorem walkForest_not_matched (git : Bool) (m : Option Matcher)
    (rel : String → String) (p : String) (hp : matchesOpt m p = true) :
    ∀ f : FsForest, p ∉ (walkForest git m rel f).files ∧ p ∉ (walkForest git m rel f).dirs
  | .nil => by simp [walkForest]
  | .cons t f => by
    have h1 := walkTree_not_matched git m rel p hp t
    have h2 := walkForest_not_matched git m rel p hp f
    have hfiles : (walkForest git m rel (.cons t f)).files =
        (walkTree git m rel t).files ++ (walkForest git m rel f).files := by
      simp [walkForest]
    have hdirs : (walkForest git m rel (.cons t f)).dirs =
        (walkTree git m rel t).dirs ++ (walkForest git m rel f).dirs := by
      simp [walkForest]
    constructor
    · rw [hfiles]
      intro hc
      exact (List.mem_append.mp hc).elim h1.1 h2.1
    · rw [hdirs]
      intro hc
      exact (List.mem_append.mp hc).elim h1.2 h2.2
end

theorem getPaths_git_paths_eq (m : Option Matcher) (rel : String → String)
    (tr un : List String) (tree : FsTree) :
    (getPaths true m rel tr un tree).paths =
      (gitListAccum m rel tr).1 ++ (gitListAccum m rel un).1 ++
        (walkTree true m rel tree).dirs := by
  show (gitListAccum m rel tr).1 ++ (gitListAccum m rel un).1 ++
      (walkTree true m rel tree).files ++ (walkTree true m rel tree).dirs = _
  rw [walkTree_git_no_files]
  simp

theorem getPaths_nongit_paths_eq (m : Option Matcher) (rel : String → String)
    (tr un : List String) (tree : FsTree) :
    (getPaths false m rel tr un tree).paths =
      (walkTree false m rel tree).files ++ (walkTree false m rel tree).dirs := by
  show ([] : List String) ++ ([] : List String) ++
      (walkTree false m rel tree).files ++ (walkTree false m rel tree).dirs = _
  simp

mutual
theorem walkTree_prune_eq (git : Bool) (m : Option Matcher) (rel : String → String) :
    ∀ t : FsTree, walkTree git m rel t = walkTree git m rel (pruneTree m rel t)
  | .file p => by simp [pruneTree]
  | .dir p children => by
    by_cases h : matchesOpt m (rel p)
    · simp [walkTree, pruneTree, h, walkForest]
    · simp [walkTree, pruneTree, h, walkForest_prune_eq git m rel children]
theorem walkForest_prune_eq (git : Bool) (m : Option Matcher) (rel : String → String) :
    ∀ f : FsForest, walkForest git m rel f = walkForest git m rel (pruneForest m rel f)
  | .nil => by simp [pruneForest]
  | .cons t f => by
    simp [walkForest, pruneForest, ← walkTree_prune_eq git m rel t,
      ← walkForest_prune_eq git m rel f]
end

/-- C5: when `baseDir` is a git repository, the raw walk contributes
directories only and every file path in the merged result comes from one
of the two git listings (individually relativized and matcher-filtered);
the walk's directory entries are a separate accumulator appended only
after all three producers are joined.  When `baseDir` is not a git
repository, the two listings do not run and the raw walk alone contributes
both the files and the directories. -/
theorem getPaths_producer_sources :
    (∀ (m : Option Matcher) (rel : String → String) (tree : FsTree),
      (walkTree true m rel tree).files = []) ∧
    (∀ (m : Option Matcher) (rel : String → String)
      (tr un : List String) (tree : FsTree) (p : String),
      p ∈ (getPaths true m rel tr un tree).paths ↔
        ((∃ l ∈ tr, rel l = p ∧ matchesOpt m p = false) ∨
          (∃ l ∈ un, rel l = p ∧ matchesOpt m p = false) ∨
          p ∈ (walkTree true m rel tree).dirs)) ∧
    (∀ (m : Option Matcher) (rel : String → String)
      (tr un : List String) (tree : FsTree) (p : String),
      p ∈ (getPaths false m rel tr un tree).paths ↔
        (p ∈ (walkTree false m rel tree).files ∨
          p ∈ (walkTree false m rel tree).dirs)) := by
  refine ⟨walkTree_git_no_files, ?_, ?_⟩
  · intro m rel tr un tree p
    rw [getPaths_git_paths_eq]
    simp only [List.mem_append, gitListAccum_mem]
    exact or_assoc
  · intro m rel tr un tree p
    rw [getPaths_nongit_paths_eq]
    exact List.mem_append

/-- C6 (amended): a path the compiled matcher matches is absent from the
accepted-path result of every producer branch of `GetPaths` (they all
divert matches into `ignoredPaths`); and the raw walk never enters a
matched directory, so the walk's output is unchanged when the subtrees of
all matched directories are deleted — in a non-git directory, where the
walk is the only producer, no descendant of an ignored directory appears
at all.  (Paths contributed by the git listings are only matched
individually, so a listed file under an ignored directory that the
matcher does not itself match is still accepted — see the
counterexample.) -/
theorem getPaths_ignore_filtering :
    (∀ (git : Bool) (m : Option Matcher) (rel : String → String)
      (tr un : List String) (tree : FsTree) (p : String),
      matchesOpt m p = true → p ∉ (getPaths git m rel tr un tree).paths) ∧
    (∀ (git : Bool) (m : Option Matcher) (rel : String → String) (tree : FsTree),
      walkTree git m rel tree = walkTree git m rel (pruneTree m rel tree)) := by
  constructor
  · intro git m rel tr un tree p hp
    have hw := walkTree_not_matched git m rel p hp tree
    have hgit : ∀ ls : List String, p ∉ (gitListAccum m rel ls).1 := by
      intro ls hc
      obtain ⟨l, _, _, hm⟩ := (gitListAccum_mem m rel ls p).mp hc
      rw [hp] at hm
      cases hm
    cases git
    · rw [getPaths_nongit_paths_eq]
      intro hc
      exact (List.mem_append.mp hc).elim hw.1 hw.2
    · rw [getPaths_git_paths_eq]
      intro hc
      rcases List.mem_append.mp hc with hc' | hc'
      · exact (List.mem_append.mp hc').elim (hgit tr) (hgit un)
      · exact hw.2 hc'
  · exact walkTree_prune_eq

/-- C6 witness: a matcher matching the path `a/b.log` (as the compiled
pattern `*.log` would): that path is absent from the result even though it
occurs in a git listing and in the walked tree. -/
theorem getPaths_ignore_filtering_witness :
    matchesOpt (some fun p => p == "a/b.log") "a/b.log" = true ∧
      "a/b.log" ∉ (getPaths true (some fun p => p == "a/b.log") (fun s => s)
        ["a/b.log", "c.txt"] []
        (.dir "." (.cons (.file "a/b.log") .nil))).paths :=
  ⟨by decide,
    getPaths_ignore_filtering.1 true (some fun p => p == "a/b.log") (fun s => s)
      ["a/b.log", "c.txt"] [] (.dir "." (.cons (.file "a/b.log") .nil))
      "a/b.log" (by decide)⟩

/-- C6 counterexample: with a matcher that matches the directory "a" but
not the file "a/b.txt" (compiled, e.g., from the pattern file "a" with
negation "!a/b.txt"), the walk ignores and prunes directory "a", yet the
git-tracked listing — whose entries are only matched individually —
contributes its descendant "a/b.txt" to the returned path set, so a
descendant of an ignored directory does appear in the result. -/
theorem getPaths_descendant_counterexample :
    matchesOpt (some fun p => p == "a") "a" = true ∧
    matchesOpt (some fun p => p == "a") "a/b.txt" = false ∧
    "a" ∈ (getPaths true (some fun p => p == "a") (fun s => s) ["a/b.txt"] []
      (.dir "." (.cons (.dir "a" (.cons (.file "a/b.txt") .nil)) .nil))).ignoredPaths ∧
    "a/b.txt" ∈ (getPaths true (some fun p => p == "a") (fun s => s) ["a/b.txt"] []
      (.dir "." (.cons (.dir "a" (.cons (.file "a/b.txt") .nil)) .nil))).paths := by
  refine ⟨by decide, by decide, by decide, by decide⟩

/-- Filesystem probes used by the project-lineage searches: `stat p`
models the success of the existence check the source performs on `p`
(`!os.IsNotExist(err)` for marker directories in `findPlandex`,
`err == nil` for settings files — the two kinds of path never coincide),
and `read p` models `os.ReadFile(p)` with `none` a read error. -/
structure ProjFs where
  stat : String → Bool
  read : String → Option String

/-- Go's `filepath.Join` at the two-element call sites of this source:
an empty first element is dropped, otherwise the elements are joined with
the separator.  In particular `filepathJoin "" b = b`: when `findPlandex`
finds no marker directory, the joined settings path degenerates to the
bare relative file name `b`. -/
def filepathJoin (a b : String) : String :=
  if a = "" then b else a ++ "/" ++ b

/-- `findPlandex` (lines 438-450): the marker directory name depends on
the environment (`.plandex-dev` when `PLANDEX_ENV` is "development",
`.plandex` otherwise); the joined path is returned when `os.Stat` does not
report not-exist, and "" otherwise. -/
def findPlandex (fs : ProjFs) (dev : Bool) (baseDir : String) : String :=
  let dir := filepathJoin baseDir (if dev then ".plandex-dev" else ".plandex")
  if fs.stat dir then dir else ""

/-- Outcome of the per-directory settings probe. -/
inductive SettingsProbe where
  | absent
  | readFails
  | malformed
  | found (projectId : String)
deriving DecidableEq, Repr

/-- The per-directory probe duplicated in `GetParentProjectIdsWithPaths`
(lines 311-327) and `GetChildProjectIdsWithPaths` (lines 366-381): locate
the marker via `findPlandex`, join the result with "project.json", stat
it, read it, and unmarshal it (`parse` models `json.Unmarshal` into
`types.CurrentProjectSettings` followed by taking `.Id`; `none` is an
unmarshal error).  Note the joined path is `"project.json"` itself when no
marker directory was located. -/
def probeProject (fs : ProjFs) (parse : String → Option String) (dev : Bool)
    (path : String) : SettingsProbe :=
  let plandexDir := findPlandex fs dev path
  let projectSettingsPath := filepathJoin plandexDir "project.json"
  if fs.stat projectSettingsPath then
    match fs.read projectSettingsPath with
    | none => .readFails
    | some bytes =>
      match parse bytes with
      | none => .malformed
      | some projectId => .found projectId
  else .absent

/-- Result of a lineage search: the accumulated `(directoryPath,
projectId)` pairs, an error return, or a `panic`. -/
inductive LineageOutcome where
  | ok (pairs : List (String × String))
  | ioErr (msg : String)
  | panicked
deriving DecidableEq, Repr

/-- `GetParentProjectIdsWithPaths` (lines 306-333): the Go loop iterates
`currentDir` from `filepath.Dir(Cwd)` upward while `currentDir != "/"`;
`ancestors` is that finite chain, in walk order.  At each level the
settings file at `filepathJoin (findPlandex fs dev d) "project.json"` is
probed: a read error returns an error (discarding the accumulated pairs),
an unmarshal failure panics, and a parsed id appends `(d, projectId)`. -/
def getParentProjectIdsWithPaths (fs : ProjFs) (parse : String → Option String)
    (dev : Bool) : List String → LineageOutcome
  | [] => .ok []
  | d :: ds =>
    match probeProject fs parse dev d with
    | .absent => getParentProjectIdsWithPaths fs parse dev ds
    | .readFails => .ioErr "error reading projectId file"
    | .malformed => .panicked
    | .found projectId =>
      match getParentProjectIdsWithPaths fs parse dev ds with
      | .ok pairs => .ok ((d, projectId) :: pairs)
      | r => r

/-- The pairs the claim predicts: one per ancestor whose probe finds and
parses a settings file. -/
def lineagePairs (fs : ProjFs) (parse : String → Option String) (dev : Bool)
    (ds : List String) : List (String × String) :=
  ds.filterMap fun d =>
    match probeProject fs parse dev d with
    | .found projectId => some (d, projectId)
    | _ => none

theorem getParent_ok_pairs (fs : ProjFs) (parse : String → Option String)
    (dev : Bool) :
    ∀ (ds : List String) (pairs : List (String × String)),
      getParentProjectIdsWithPaths fs parse dev ds = .ok pairs →
        pairs = lineagePairs fs parse dev ds := by
  intro ds
  induction ds with
  | nil =>
    intro pairs h
    simp [getParentProjectIdsWithPaths] at h
    simp [lineagePairs, ← h]
  | cons d ds ih =>
    intro pairs h
    cases hp : probeProject fs parse dev d with
    | absent =>
      simp only [getParentProjectIdsWithPaths, hp] at h
      simp [lineagePairs, List.filterMap_cons, hp]
      rw [← lineagePairs]
      exact ih pairs h
    | readFails => simp [getParentProjectIdsWithPaths, hp] at h
    | malformed => simp [getParentProjectIdsWithPaths, hp] at h
    | found projectId =>
      simp only [getParentProjectIdsWithPaths, hp] at h
      cases hr : getParentProjectIdsWithPaths fs parse dev ds with
      | ok pairs' =>
        rw [hr] at h
        simp at h
        simp [lineagePairs, List.filterMap_cons, hp, ← h]
        rw [← lineagePairs]
        exact ih pairs' hr
      | ioErr msg => rw [hr] at h; simp at h
      | panicked => rw [hr] at h; simp at h

theorem getParent_never_past_malformed (fs : ProjFs)
    (parse : String → Option String) (dev : Bool) :
    ∀ (ds : List String) (pairs : List (String × String)),
      getParentProjectIdsWithPaths fs parse dev ds = .ok pairs →
        ∀ d ∈ ds, probeProject fs parse dev d ≠ .malformed := by
  intro ds
  induction ds with
  | nil => intro pairs _ d hd; cases hd
  | cons d0 ds ih =>
    intro pairs h d hd
    cases hp : probeProject fs parse dev d0 with
    | absent =>
      simp only [getParentProjectIdsWithPaths, hp] at h
      rcases List.mem_cons.mp hd with hdd | hdd
      · subst hdd; simp [hp]
      · exact ih pairs h d hdd
    | readFails => simp [getParentProjectIdsWithPaths, hp] at h
    | malformed => simp [getParentProjectIdsWithPaths, hp] at h
    | found projectId =>
      simp only [getParentProjectIdsWithPaths, hp] at h
      cases hr : getParentProjectIdsWithPaths fs parse dev ds with
      | ok pairs' =>
        rcases List.mem_cons.mp hd with hdd | hdd
        · subst hdd; simp [hp]
        · exact ih pairs' hr d hdd
      | ioErr msg => rw [hr] at h; simp at h
      | panicked => rw [hr] at h; simp at h

/-- C9 (amended): the settings path checked at each ancestor level is the
join of the `findPlandex` result with "project.json" — which degenerates
to the bare relative path "project.json" when no marker directory is
located, so a pair can be appended at a marker-less level (see the
counterexample); a successful return carries exactly the pairs of the
levels whose probe found and parsed a settings file; a parse failure of a
found settings file panics immediately (fatal), so no successful return
ever passes over a malformed settings file. -/
theorem getParent_probe_characterization :
    (∀ (fs : ProjFs) (parse : String → Option String) (dev : Bool)
      (ds : List String) (pairs : List (String × String)),
      getParentProjectIdsWithPaths fs parse dev ds = .ok pairs →
        pairs = lineagePairs fs parse dev ds) ∧
    (∀ (fs : ProjFs) (parse : String → Option String) (dev : Bool)
      (ds : List String) (pairs : List (String × String)),
      getParentProjectIdsWithPaths fs parse dev ds = .ok pairs →
        ∀ d ∈ ds, probeProject fs parse dev d ≠ .malformed) ∧
    (∀ (fs : ProjFs) (parse : String → Option String) (dev : Bool)
      (d : String) (ds : List String) (b : String),
      fs.stat (filepathJoin (findPlandex fs dev d) "project.json") = true →
      fs.read (filepathJoin (findPlandex fs dev d) "project.json") = some b →
      parse b = none →
        getParentProjectIdsWithPaths fs parse dev (d :: ds) = .panicked) := by
  refine ⟨getParent_ok_pairs, getParent_never_past_malformed, ?_⟩
  intro fs parse dev d ds b hstat hread hparse
  have hprobe : probeProject fs parse dev d = .malformed := by
    simp [probeProject, hstat, hread, hparse]
  simp [getParentProjectIdsWithPaths, hprobe]

/-- C9 witness: a concrete ancestor chain on which an unmarshal failure of
a found settings file panics. -/
theorem getParent_probe_characterization_witness :
    getParentProjectIdsWithPaths
      ⟨fun p => p == "/h/.plandex" || p == "/h/.plandex/project.json",
        fun p => if p == "/h/.plandex/project.json" then some "bad" else none⟩
      (fun _ => none) false ["/h", "/x"] = .panicked :=
  getParent_probe_characterization.2.2
    ⟨fun p => p == "/h/.plandex" || p == "/h/.plandex/project.json",
      fun p => if p == "/h/.plandex/project.json" then some "bad" else none⟩
    (fun _ => none) false "/h" ["/x"] "bad" (by decide) (by decide) rfl

/-- C9 counterexample: with no marker directory at any ancestor but a file
"project.json" reachable at the working directory (the degenerate relative
settings path), the search appends a pair for the marker-less ancestor
"/home/u" — the claim's "checks for the settings file inside that located
marker directory" predicts no pair, since no marker directory is located
there. -/
theorem getParent_markerless_counterexample :
    findPlandex
        ⟨fun p => p == "project.json",
          fun p => if p == "project.json" then some "stray" else none⟩
        false "/home/u" = "" ∧
      getParentProjectIdsWithPaths
        ⟨fun p => p == "project.json",
          fun p => if p == "project.json" then some "stray" else none⟩
        (fun s => if s == "stray" then some "id1" else none) false
        ["/home/u"] = .ok [("/home/u", "id1")] := by
  exact ⟨by decide, by decide⟩

/-- The error `filepath.Walk` may hand to the walk function for an entry:
a permission error (`os.IsPermission`) or any other error. -/
inductive VisitErr where
  | permission
  | other (msg : String)
deriving DecidableEq, Repr

mutual
/-- A filesystem entry as visited by `filepath.Walk` in
`GetChildProjectIdsWithPaths`: the walked path and the error (if any)
reported for the entry; directories carry their children.  `info.Name()`
is the base name of the path. -/
inductive CEntry where
  | cfile : String → Option VisitErr → CEntry
  | cdir : String → Option VisitErr → CForest → CEntry
inductive CForest where
  | nil : CForest
  | cons : CEntry → CForest → CForest
end

/-- `strings.HasPrefix(info.Name(), ".")`: whether the first character of
the entry's base name is '.'. -/
def hiddenName (path : String) : Bool :=
  match (filepathBase path).toList with
  | [] => false
  | c :: _ => c = '.'

/-- Mutable state of the child walk: the accumulated `childProjectIds`
pairs and the number of entries that have passed the context check so far.
The context deadline is modeled by a tick budget: the select on
`ctx.Done()` reports the context as done once `deadline` checks have
already happened (a deterministic stand-in for wall-clock expiry). -/
structure ChildState where
  pairs : List (String × String)
  ticks : Nat
deriving DecidableEq, Repr

/-- Why the walk function stopped early: the context-timeout error (line
361), an I/O error return, or a panic from `json.Unmarshal` failure. -/
inductive WalkStop where
  | timeout
  | ioErr (msg : String)
  | panicked
deriving DecidableEq, Repr

mutual
/-- The walk function of `GetChildProjectIdsWithPaths` (lines 338-385) on
one entry, in visit order: an entry with a permission error is skipped
(for a directory, `filepath.SkipDir` prunes the whole subtree) and the
walk continues; any other entry error is returned and aborts the walk; a
hidden name is skipped (pruning the subtree for a directory); then the
context check runs, returning the timeout error once the deadline has
fired; finally, a directory other than `cwd` is probed for a project
settings file — a read error aborts, an unmarshal failure panics, a
parsed id appends `(path, projectId)` — and the children are walked. -/
def walkCEntry (fs : ProjFs) (parse : String → Option String) (dev : Bool)
    (deadline : Nat) (cwd : String) (s : ChildState) :
    CEntry → ChildState × Option WalkStop
  | .cfile path ve =>
    match ve with
    | some .permission => (s, none)
    | some (.other msg) => (s, some (.ioErr msg))
    | none =>
      if hiddenName path then (s, none)
      else if deadline ≤ s.ticks then (s, some .timeout)
      else ({ s with ticks := s.ticks + 1 }, none)
  | .cdir path ve children =>
    match ve with
    | some .permission => (s, none)
    | some (.other msg) => (s, some (.ioErr msg))
    | none =>
      if hiddenName path then (s, none)
      else if deadline ≤ s.ticks then (s, some .timeout)
      else
        let s1 : ChildState := { s with ticks := s.ticks + 1 }
        if path = cwd then walkCForest fs parse dev deadline cwd s1 children
        else
          match probeProject fs parse dev path with
          | .absent => walkCForest fs parse dev deadline cwd s1 children
          | .readFails => (s1, some (.ioErr "error reading projectId file"))
          | .malformed => (s1, some .panicked)
          | .found projectId =>
            walkCForest fs parse dev deadline cwd
              { s1 with pairs := s1.pairs ++ [(path, projectId)] } children
def walkCForest (fs : ProjFs) (parse : String → Option String) (dev : Bool)
    (deadline : Nat) (cwd : String) (s : ChildState) :
    CForest → ChildState × Option WalkStop
  | .nil => (s, none)
  | .cons e f =>
    match walkCEntry fs parse dev deadline cwd s e with
    | (s', none) => walkCForest fs parse dev deadline cwd s' f
    | r => r
end

/-- `GetChildProjectIdsWithPaths` (lines 335-396): walk the tree rooted at
`cwd` from empty state; a clean finish returns the pairs, the
context-timeout error is converted to a nil-error return of the pairs
accumulated so far (lines 387-390), any other walk error is wrapped and
returned, and an unmarshal panic propagates. -/
def getChildProjectIdsWithPaths (fs : ProjFs) (parse : String → Option String)
    (dev : Bool) (deadline : Nat) (cwd : String) (root : CEntry) :
    LineageOutcome :=
  match walkCEntry fs parse dev deadline cwd ⟨[], 0⟩ root with
  | (s, none) => .ok s.pairs
  | (s, some .timeout) => .ok s.pairs
  | (_, some (.ioErr msg)) =>
    .ioErr ("error walking the path " ++ cwd ++ ": " ++ msg)
  | (_, some .panicked) => .panicked

mutual
theorem walkCEntry_pairs_append (fs : ProjFs) (parse : String → Option String)
    (dev : Bool) (deadline : Nat) (cwd : String) :
    ∀ (e : CEntry) (s : ChildState),
      ∃ extra, (walkCEntry fs parse dev deadline cwd s e).1.pairs = s.pairs ++ extra
  | .cfile path ve, s => by
    cases ve with
    | none =>
      by_cases h1 : hiddenName path
      · exact ⟨[], by simp [walkCEntry, h1]⟩
      · by_cases h2 : deadline ≤ s.ticks
        · exact ⟨[], by simp [walkCEntry, h1, h2]⟩
        · exact ⟨[], by simp [walkCEntry, h1, h2]⟩
    | some v =>
      cases v with
      | permission => exact ⟨[], by simp [walkCEntry]⟩
      | other msg => exact ⟨[], by simp [walkCEntry]⟩
  | .cdir path ve children, s => by
    cases ve with
    | some v =>
      cases v with
      | permission => exact ⟨[], by simp [walkCEntry]⟩
      | other msg => exact ⟨[], by simp [walkCEntry]⟩
    | none =>
      by_cases h1 : hiddenName path
      · exact ⟨[], by simp [walkCEntry, h1]⟩
      · by_cases h2 : deadline ≤ s.ticks
        · exact ⟨[], by simp [walkCEntry, h1, h2]⟩
        · by_cases h3 : path = cwd
          · obtain ⟨extra, hx⟩ := walkCForest_pairs_append fs parse dev deadline cwd
              children { s with ticks := s.ticks + 1 }
            refine ⟨extra, ?_⟩
            have h1' : ¬ hiddenName cwd = true := by rw [← h3]; exact h1
            have heq : walkCEntry fs parse dev deadline cwd s (.cdir path none children) =
                walkCForest fs parse dev deadline cwd
                  { s with ticks := s.ticks + 1 } children := by
              simp [walkCEntry, h1', h2, h3]
            rw [heq]
            exact hx
          · cases hp : probeProject fs parse dev path with
            | absent =>
              obtain ⟨extra, hx⟩ := walkCForest_pairs_append fs parse dev deadline cwd
                children { s with ticks := s.ticks + 1 }
              refine ⟨extra, ?_⟩
              have heq : walkCEntry fs parse dev deadline cwd s (.cdir path none children) =
                  walkCForest fs parse dev deadline cwd
                    { s with ticks := s.ticks + 1 } children := by
                simp [walkCEntry, h1, h2, h3, hp]
              rw [heq]
              exact hx
            | readFails =>
              exact ⟨[], by simp [walkCEntry, h1, h2, h3, hp]⟩
            | malformed =>
              exact ⟨[], by simp [walkCEntry, h1, h2, h3, hp]⟩
            | found projectId =>
              obtain ⟨extra, hx⟩ := walkCForest_pairs_append fs parse dev deadline cwd
                children ⟨s.pairs ++ [(path, projectId)], s.ticks + 1⟩
              refine ⟨(path, projectId) :: extra, ?_⟩
              have heq : walkCEntry fs parse dev deadline cwd s (.cdir path none children) =
                  walkCForest fs parse dev deadline cwd
                    ⟨s.pairs ++ [(path, projectId)], s.ticks + 1⟩ children := by
                simp [walkCEntry, h1, h2, h3, hp]
              rw [heq, hx, List.append_assoc]
              rfl
theorem walkCForest_pairs_append (fs : ProjFs) (parse : String → Option String)
    (dev : Bool) (deadline : Nat) (cwd : String) :
    ∀ (f : CForest) (s : ChildState),
      ∃ extra, (walkCForest fs parse dev deadline cwd s f).1.pairs = s.pairs ++ extra
  | .nil, s => ⟨[], by simp [walkCForest]⟩
  | .cons e f, s => by
    obtain ⟨x1, h1⟩ := walkCEntry_pairs_append fs parse dev deadline cwd e s
    rcases hr : walkCEntry fs parse dev deadline cwd s e with ⟨s', stop⟩
    rw [hr] at h1
    simp only at h1
    cases stop with
    | none =>
      obtain ⟨x2, h2⟩ := walkCForest_pairs_append fs parse dev deadline cwd f s'
      have heq : walkCForest fs parse dev deadline cwd s (.cons e f) =
          walkCForest fs parse dev deadline cwd s' f := by
        simp [walkCForest, hr]
      refine ⟨x1 ++ x2, ?_⟩
      rw [heq, h2, h1, List.append_assoc]
    | some st =>
      have heq : walkCForest fs parse dev deadline cwd s (.cons e f) = (s', some st) := by
        simp [walkCForest, hr]
      exact ⟨x1, by rw [heq]; exact h1⟩
end

/-- C8: the child-project search skips an entry with a permission error —
for a directory, the whole subtree — and continues with the remaining
entries; an entry with any other error stops the walk and the search
returns the wrapped error; and when the deadline fires the walk stops with
the timeout error, which the search converts to a nil-error return of the
pairs accumulated so far (and pairs only ever grow by appending). -/
theorem getChildProjectIds_error_handling :
    (∀ (fs : ProjFs) (parse : String → Option String) (dev : Bool)
      (deadline : Nat) (cwd : String) (s : ChildState) (path : String)
      (children : CForest),
      walkCEntry fs parse dev deadline cwd s (.cdir path (some .permission) children) =
        (s, none)) ∧
    (∀ (fs : ProjFs) (parse : String → Option String) (dev : Bool)
      (deadline : Nat) (cwd : String) (s : ChildState) (path : String)
      (children : CForest) (f : CForest),
      walkCForest fs parse dev deadline cwd s
          (.cons (.cdir path (some .permission) children) f) =
        walkCForest fs parse dev deadline cwd s f) ∧
    (∀ (fs : ProjFs) (parse : String → Option String) (dev : Bool)
      (deadline : Nat) (cwd : String) (s : ChildState) (path msg : String),
      walkCEntry fs parse dev deadline cwd s (.cfile path (some (.other msg))) =
        (s, some (.ioErr msg))) ∧
    (∀ (fs : ProjFs) (parse : String → Option String) (dev : Bool)
      (deadline : Nat) (cwd : String) (root : CEntry) (s' : ChildState)
      (msg : String),
      walkCEntry fs parse dev deadline cwd ⟨[], 0⟩ root = (s', some (.ioErr msg)) →
        getChildProjectIdsWithPaths fs parse dev deadline cwd root =
          .ioErr ("error walking the path " ++ cwd ++ ": " ++ msg)) ∧
    (∀ (fs : ProjFs) (parse : String → Option String) (dev : Bool)
      (deadline : Nat) (cwd : String) (root : CEntry) (s' : ChildState),
      walkCEntry fs parse dev deadline cwd ⟨[], 0⟩ root = (s', some .timeout) →
        getChildProjectIdsWithPaths fs parse dev deadline cwd root = .ok s'.pairs) ∧
    (∀ (fs : ProjFs) (parse : String → Option String) (dev : Bool)
      (deadline : Nat) (cwd : String) (e : CEntry) (s : ChildState),
      ∃ extra, (walkCEntry fs parse dev deadline cwd s e).1.pairs = s.pairs ++ extra) := by
  refine ⟨?_, ?_, ?_, ?_, ?_, walkCEntry_pairs_append⟩
  · intro fs parse dev deadline cwd s path children
    simp [walkCEntry]
  · intro fs parse dev deadline cwd s path children f
    have h1 : walkCEntry fs parse dev deadline cwd s
        (.cdir path (some .permission) children) = (s, none) := by
      simp [walkCEntry]
    simp [walkCForest, h1]
  · intro fs parse dev deadline cwd s path msg
    simp [walkCEntry]
  · intro fs parse dev deadline cwd root s' msg h
    simp [getChildProjectIdsWithPaths, h]
  · intro fs parse dev deadline cwd root s' h
    simp [getChildProjectIdsWithPaths, h]

/-- C8 witness: with deadline 0 the context check fires at the root visit,
the walk stops with the timeout error, and the search returns the pairs
accumulated so far (none) with no error. -/
theorem getChildProjectIds_error_handling_witness :
    walkCEntry ⟨fun _ => false, fun _ => none⟩ (fun _ => none) false 0 "/w"
        ⟨[], 0⟩ (.cdir "/w" none .nil) = (⟨[], 0⟩, some .timeout) ∧
      getChildProjectIdsWithPaths ⟨fun _ => false, fun _ => none⟩ (fun _ => none)
        false 0 "/w" (.cdir "/w" none .nil) = .ok ([] : List (String × String)) :=
  ⟨by decide,
    getChildProjectIds_error_handling.2.2.2.2.1 ⟨fun _ => false, fun _ => none⟩
      (fun _ => none) false 0 "/w" (.cdir "/w" none .nil) ⟨[], 0⟩ (by decide)⟩

end Plandex
